import Mathlib

/-!
Verification of the kernel-regression shock estimator `kernel_curve`
from `src/stress.py` of the `defi-liquidation-risk-visual` repository.

The estimator is embedded shallowly over exact real arithmetic:

* the two input series, the grid and all weights are `List ℝ`;
* `np.nan` entries of the result columns become `Option ℝ` (`none` = null);
* the per-call pseudo-random generator (`np.random.default_rng(seed)`,
  a library component external to the repository) is modelled as a
  deterministic stream of uniform draws in `[0,1)` indexed by the seed and
  a position counter that the estimator threads through the bootstrap,
  with weighted index selection by inverse-CDF search — the documented
  semantics of `rng.choice(..., replace=True, p=...)`.
-/

namespace DefiStress

/-- One row of the result table returned by `kernel_curve`:
columns `shock`, `est`, `p25`, `p75` (nullable floats) and `effN`. -/
structure Row where
  shock : ℝ
  est : Option ℝ
  p25 : Option ℝ
  p75 : Option ℝ
  effN : ℕ

/-- `w.max()` of a numpy array, as a total function on lists
(numpy raises on an empty array; the empty case is given the junk value 0,
it is never reached by a call with a nonempty series). -/
noncomputable def listMax : List ℝ → ℝ
  | [] => 0
  | a :: t => t.foldl max a

/-- Minimum of a list of reals, dual to `listMax`. -/
noncomputable def listMin : List ℝ → ℝ
  | [] => 0
  | a :: t => t.foldl min a

/-- The Gaussian kernel weight of one observation `xi` at grid point `g`:
`np.exp(-((xv - g)**2) / (2 * sigma**2))`, elementwise. -/
noncomputable def gaussWeight (sigma g xi : ℝ) : ℝ :=
  Real.exp (-((xi - g) ^ 2) / (2 * sigma ^ 2))

/-- The weight vector `w = np.exp(-((xv - g)**2) / (2 * sigma**2))`. -/
noncomputable def weights (x : List ℝ) (sigma g : ℝ) : List ℝ :=
  x.map (gaussWeight sigma g)

/-- `int((w / (w.max() if w.max() else 1) > 0.1).sum())`: the number of
entries of `w` whose ratio to the maximal weight exceeds 0.1, with the
denominator replaced by 1 when the maximum is 0. -/
noncomputable def effCount (w : List ℝ) : ℕ :=
  w.countP (fun wi => decide ((0.1 : ℝ) < wi / (if listMax w = 0 then 1 else listMax w)))

/-- `np.average(a, weights=w) = (a * w).sum() / w.sum()`. -/
noncomputable def average (a w : List ℝ) : ℝ :=
  ((a.zip w).map (fun q => q.1 * q.2)).sum / w.sum

/-- Integer state of the modelled generator stream: a value below 104729
obtained deterministically from the seed and the position counter. -/
def uNum (seed k : ℕ) : ℕ :=
  ((seed + 1) * (k + 1) * 7919) % 104729

/-- Modelled from the spec: the call-scoped seeded pseudo-random generator
(`np.random.default_rng(seed)` is a library component external to this
repository; §5 of the spec requires only a deterministic stream advanced in
order from the seed). `uDraw seed k` is the `k`-th uniform draw in `[0,1)`. -/
noncomputable def uDraw (seed k : ℕ) : ℝ :=
  (uNum seed k : ℝ) / 104729

/-- Inverse-CDF selection of an index from an (unnormalized) probability
vector `p` given a uniform draw `u`: the least `i` with
`u < p 0 + ... + p i`.  This is the documented semantics of
`rng.choice(idx, p=...)`: an index is selected iff the draw falls inside
its probability segment, so zero-probability indices are never selected. -/
noncomputable def pickIndex : List ℝ → ℝ → ℕ
  | [], _ => 0
  | q :: rest, u => if u < q then 0 else pickIndex rest (u - q) + 1

/-- One bootstrap resample: `rng.choice(idx, size=n, replace=True, p=p)`
drawing `n` indices using the draws at positions `pos, pos+1, ...`. -/
noncomputable def drawSample (p : List ℝ) (seed pos n : ℕ) : List ℕ :=
  (List.range n).map (fun j => pickIndex p (uDraw seed (pos + j)))

/-- The list `bs` of the bootstrap loop: `n_boot` resample means, the `b`-th
built from the sample drawn with probabilities `w / w.sum()` at stream
position `pos + b * len(w)`, averaging `yv[samp]` with weights `w[samp]`. -/
noncomputable def bootMeans (y w : List ℝ) (seed pos nb : ℕ) : List ℝ :=
  (List.range nb).map (fun b =>
    let samp := drawSample (w.map (fun wi => wi / w.sum)) seed (pos + b * w.length) w.length
    average (samp.map (fun i => y.getD i 0)) (samp.map (fun i => w.getD i 0)))

/-- `np.nanpercentile(l, q)` on a NaN-free list: sort, take the virtual
index `h = q/100 * (len - 1)` and linearly interpolate between the
neighbouring order statistics. -/
noncomputable def percentile (l : List ℝ) (q : ℝ) : ℝ :=
  let s := List.insertionSort (fun a b => a ≤ b) l
  let h : ℝ := q / 100 * ((l.length : ℝ) - 1)
  let lo := ⌊h⌋₊
  s.getD lo 0 + (h - (lo : ℝ)) * (s.getD (min (lo + 1) (l.length - 1)) 0 - s.getD lo 0)

/-- The body of the grid loop of `kernel_curve` at one grid point `g`,
starting from generator position `pos`: returns the row appended to the
four column lists and the generator position after the point. -/
noncomputable def kcPoint (x y : List ℝ) (sigma : ℝ) (nb mn seed pos : ℕ) (g : ℝ) :
    Row × ℕ :=
  let w := weights x sigma g
  let nEff := effCount w
  if nEff < mn ∨ w.sum = 0 then
    (⟨g, none, none, none, nEff⟩, pos)
  else
    (⟨g, some (average y w),
        some (percentile (bootMeans y w seed pos nb) 25),
        some (percentile (bootMeans y w seed pos nb) 75),
        nEff⟩,
      pos + nb * x.length)

/-- The grid loop of `kernel_curve`: one row per grid point, processed in
order, threading the generator position. -/
noncomputable def kcRows (x y : List ℝ) (sigma : ℝ) (nb mn seed : ℕ) :
    List ℝ → ℕ → List Row
  | [], _ => []
  | g :: gs, pos =>
      (kcPoint x y sigma nb mn seed pos g).1 ::
        kcRows x y sigma nb mn seed gs (kcPoint x y sigma nb mn seed pos g).2

/-- `kernel_curve(x, y, grid, sigma, n_boot, min_eff_n, seed)` from
`src/stress.py`: Gaussian kernel regression with a weighted-bootstrap
interquartile band, returning the table `shock, est, p25, p75, effN`. -/
noncomputable def kernel_curve (x y grid : List ℝ) (sigma : ℝ) (nb mn seed : ℕ) :
    List Row :=
  kcRows x y sigma nb mn seed grid 0

/-- The preconditions of §4.1 of the spec (spec-side definition, written
from the words of the spec, for comparison with the code):
`len(x) == len(y) >= 1`, `sigma > 0`, `n_boot >= 1`, `min_eff_n >= 1`. -/
def ValidArgs (x y : List ℝ) (sigma : ℝ) (nb mn : ℕ) : Prop :=
  x.length = y.length ∧ 1 ≤ x.length ∧ 0 < sigma ∧ 1 ≤ nb ∧ 1 ≤ mn

/-! ### Elementary facts about `listMax` and `listMin` -/

lemma le_foldl_max (t : List ℝ) : ∀ a : ℝ, a ≤ t.foldl max a := by
  induction t with
  | nil => intro a; exact le_refl a
  | cons b t ih =>
    intro a
    exact le_trans (le_max_left a b) (ih (max a b))

lemma mem_le_foldl_max (t : List ℝ) : ∀ a b : ℝ, b ∈ t → b ≤ t.foldl max a := by
  induction t with
  | nil => intro a b hb; cases hb
  | cons c t ih =>
    intro a b hb
    rcases List.mem_cons.mp hb with h | h
    · subst h
      exact le_trans (le_max_right a b) (le_foldl_max t _)
    · exact ih _ b h

lemma foldl_max_mem (t : List ℝ) : ∀ a : ℝ, t.foldl max a = a ∨ t.foldl max a ∈ t := by
  induction t with
  | nil => intro a; exact Or.inl rfl
  | cons b t ih =>
    intro a
    rcases ih (max a b) with h | h
    · rcases max_choice a b with hm | hm
      · left; rw [List.foldl_cons, h, hm]
      · right; rw [List.foldl_cons, h, hm]; exact List.mem_cons_self b t
    · right; exact List.mem_cons_of_mem b h

lemma le_listMax {l : List ℝ} {b : ℝ} (hb : b ∈ l) : b ≤ listMax l := by
  cases l with
  | nil => cases hb
  | cons a t =>
    simp only [listMax]
    rcases List.mem_cons.mp hb with h | h
    · subst h; exact le_foldl_max t b
    · exact mem_le_foldl_max t a b h

lemma listMax_mem {l : List ℝ} (h : l ≠ []) : listMax l ∈ l := by
  cases l with
  | nil => exact absurd rfl h
  | cons a t =>
    simp only [listMax]
    rcases foldl_max_mem t a with h1 | h1
    · rw [h1]; exact List.mem_cons_self a t
    · exact List.mem_cons_of_mem a h1

lemma foldl_min_le (t : List ℝ) : ∀ a : ℝ, t.foldl min a ≤ a := by
  induction t with
  | nil => intro a; exact le_refl a
  | cons b t ih =>
    intro a
    exact le_trans (ih (min a b)) (min_le_left a b)

lemma foldl_min_le_mem (t : List ℝ) : ∀ a b : ℝ, b ∈ t → t.foldl min a ≤ b := by
  induction t with
  | nil => intro a b hb; cases hb
  | cons c t ih =>
    intro a b hb
    rcases List.mem_cons.mp hb with h | h
    · subst h
      exact le_trans (foldl_min_le t _) (min_le_right a b)
    · exact ih _ b h

lemma foldl_min_mem (t : List ℝ) : ∀ a : ℝ, t.foldl min a = a ∨ t.foldl min a ∈ t := by
  induction t with
  | nil => intro a; exact Or.inl rfl
  | cons b t ih =>
    intro a
    rcases ih (min a b) with h | h
    · rcases min_choice a b with hm | hm
      · left; rw [List.foldl_cons, h, hm]
      · right; rw [List.foldl_cons, h, hm]; exact List.mem_cons_self b t
    · right; exact List.mem_cons_of_mem b h

lemma listMin_le {l : List ℝ} {b : ℝ} (hb : b ∈ l) : listMin l ≤ b := by
  cases l with
  | nil => cases hb
  | cons a t =>
    simp only [listMin]
    rcases List.mem_cons.mp hb with h | h
    · subst h; exact foldl_min_le t b
    · exact foldl_min_le_mem t a b h

lemma listMin_mem {l : List ℝ} (h : l ≠ []) : listMin l ∈ l := by
  cases l with
  | nil => exact absurd rfl h
  | cons a t =>
    simp only [listMin]
    rcases foldl_min_mem t a with h1 | h1
    · rw [h1]; exact List.mem_cons_self a t
    · exact List.mem_cons_of_mem a h1

/-! ### Weights, draws and index selection -/

lemma weights_length (x : List ℝ) (sigma g : ℝ) :
    (weights x sigma g).length = x.length :=
  List.length_map x _

lemma weights_pos (x : List ℝ) (sigma g : ℝ) :
    ∀ wi ∈ weights x sigma g, 0 < wi := by
  intro wi hwi
  obtain ⟨xi, _, rfl⟩ := List.mem_map.mp hwi
  exact Real.exp_pos _

lemma weights_sum_pos {x : List ℝ} (sigma g : ℝ) (hx : x ≠ []) :
    0 < (weights x sigma g).sum := by
  refine List.sum_pos _ (weights_pos x sigma g) ?_
  simpa [weights] using hx

lemma uDraw_nonneg (seed k : ℕ) : 0 ≤ uDraw seed k :=
  div_nonneg (Nat.cast_nonneg _) (by norm_num)

lemma uDraw_lt_one (seed k : ℕ) : uDraw seed k < 1 := by
  rw [uDraw, div_lt_one (by norm_num : (0:ℝ) < 104729)]
  exact_mod_cast Nat.mod_lt _ (by norm_num)

lemma sum_map_div (l : List ℝ) (c : ℝ) :
    (l.map (fun v => v / c)).sum = l.sum / c := by
  induction l with
  | nil => simp
  | cons a t ih => simp [ih, add_div]

lemma pickIndex_lt {p : List ℝ} {u : ℝ} (h0 : 0 ≤ u) (hu : u < p.sum) :
    pickIndex p u < p.length := by
  induction p generalizing u with
  | nil =>
    rw [List.sum_nil] at hu
    exact absurd hu (not_lt.mpr h0)
  | cons q rest ih =>
    simp only [pickIndex]
    split
    · simp
    · next hq =>
      have h0' : 0 ≤ u - q := by linarith [not_lt.mp hq]
      have hu' : u - q < rest.sum := by
        rw [List.sum_cons] at hu; linarith
      simpa [Nat.succ_lt_succ_iff] using ih h0' hu'

lemma pickIndex_getD_pos {p : List ℝ} {u : ℝ} (h0 : 0 ≤ u) (hu : u < p.sum) :
    0 < p.getD (pickIndex p u) 0 := by
  induction p generalizing u with
  | nil =>
    rw [List.sum_nil] at hu
    exact absurd hu (not_lt.mpr h0)
  | cons q rest ih =>
    simp only [pickIndex]
    split
    · next h => simpa using lt_of_le_of_lt h0 h
    · next hq =>
      have h0' : 0 ≤ u - q := by linarith [not_lt.mp hq]
      have hu' : u - q < rest.sum := by
        rw [List.sum_cons] at hu; linarith
      simpa using ih h0' hu'

/-! ### Weighted averages -/

lemma zipMul_sum_bounds {a w : List ℝ} {lb ub : ℝ} (hlen : a.length = w.length)
    (ha : ∀ v ∈ a, lb ≤ v ∧ v ≤ ub) (hw : ∀ wi ∈ w, 0 ≤ wi) :
    lb * w.sum ≤ ((a.zip w).map (fun q => q.1 * q.2)).sum ∧
      ((a.zip w).map (fun q => q.1 * q.2)).sum ≤ ub * w.sum := by
  induction a generalizing w with
  | nil =>
    cases w with
    | nil => simp
    | cons b bs => simp at hlen
  | cons v vs ih =>
    cases w with
    | nil => simp at hlen
    | cons b bs =>
      have hb : 0 ≤ b := hw b (List.mem_cons_self b bs)
      have hv := ha v (List.mem_cons_self v vs)
      have ih' := ih (by simpa using hlen)
        (fun u hu => ha u (List.mem_cons_of_mem _ hu))
        (fun u hu => hw u (List.mem_cons_of_mem _ hu))
      constructor
      · have h1 : lb * b ≤ v * b := mul_le_mul_of_nonneg_right hv.1 hb
        calc lb * (b :: bs).sum = lb * b + lb * bs.sum := by
              rw [List.sum_cons]; ring
          _ ≤ v * b + ((vs.zip bs).map (fun q => q.1 * q.2)).sum :=
              add_le_add h1 ih'.1
          _ = (((v :: vs).zip (b :: bs)).map (fun q => q.1 * q.2)).sum := by
              simp [List.sum_cons]
      · have h1 : v * b ≤ ub * b := mul_le_mul_of_nonneg_right hv.2 hb
        calc (((v :: vs).zip (b :: bs)).map (fun q => q.1 * q.2)).sum
            = v * b + ((vs.zip bs).map (fun q => q.1 * q.2)).sum := by
              simp [List.sum_cons]
          _ ≤ ub * b + ub * bs.sum := add_le_add h1 ih'.2
          _ = ub * (b :: bs).sum := by rw [List.sum_cons]; ring

lemma average_bounds {a w : List ℝ} {lb ub : ℝ} (hlen : a.length = w.length)
    (ha : ∀ v ∈ a, lb ≤ v ∧ v ≤ ub) (hw : ∀ wi ∈ w, 0 ≤ wi) (hs : 0 < w.sum) :
    lb ≤ average a w ∧ average a w ≤ ub := by
  obtain ⟨h1, h2⟩ := zipMul_sum_bounds hlen ha hw
  constructor
  · rw [average, le_div_iff₀ hs]
    linarith
  · rw [average, div_le_iff₀ hs]
    linarith

lemma zipMul_sum_const {a w : List ℝ} {c : ℝ} (hlen : a.length = w.length)
    (ha : ∀ v ∈ a, v = c) :
    ((a.zip w).map (fun q => q.1 * q.2)).sum = c * w.sum := by
  induction a generalizing w with
  | nil =>
    cases w with
    | nil => simp
    | cons b bs => simp at hlen
  | cons v vs ih =>
    cases w with
    | nil => simp at hlen
    | cons b bs =>
      have hv : v = c := ha v (List.mem_cons_self v vs)
      have ih' := ih (w := bs) (by simpa using hlen)
        (fun u hu => ha u (List.mem_cons_of_mem _ hu))
      subst hv
      simp only [List.zip_cons_cons, List.map_cons, List.sum_cons, ih', List.sum_cons]
      ring

lemma average_const {a w : List ℝ} {c : ℝ} (hlen : a.length = w.length)
    (ha : ∀ v ∈ a, v = c) (hs : w.sum ≠ 0) : average a w = c := by
  rw [average, zipMul_sum_const hlen ha, mul_div_assoc, div_self hs, mul_one]

/-! ### Percentiles -/

lemma length_insertionSort (l : List ℝ) :
    (List.insertionSort (fun a b => a ≤ b) l).length = l.length :=
  (List.perm_insertionSort _ l).length_eq

lemma mem_insertionSort {l : List ℝ} {v : ℝ} :
    v ∈ List.insertionSort (fun a b => a ≤ b) l ↔ v ∈ l :=
  (List.perm_insertionSort _ l).mem_iff

lemma percentile_floor_lt {l : List ℝ} {q : ℝ} (hne : l ≠ []) (hq0 : 0 ≤ q)
    (hq1 : q ≤ 100) :
    ⌊q / 100 * ((l.length : ℝ) - 1)⌋₊ ≤ l.length - 1 := by
  have hm : 1 ≤ l.length := List.length_pos.mpr hne
  have hcast : ((l.length : ℝ) - 1) = ((l.length - 1 : ℕ) : ℝ) := by
    rw [Nat.cast_sub hm, Nat.cast_one]
  have hmul : q / 100 * ((l.length : ℝ) - 1) ≤ ((l.length - 1 : ℕ) : ℝ) := by
    rw [← hcast]
    have h1 : q / 100 ≤ 1 := by linarith [div_le_one_of_le₀ hq1 (by norm_num : (0:ℝ) ≤ 100)]
    have h2 : (0:ℝ) ≤ (l.length : ℝ) - 1 := by
      have : (1:ℝ) ≤ (l.length : ℝ) := by exact_mod_cast hm
      linarith
    nlinarith
  calc ⌊q / 100 * ((l.length : ℝ) - 1)⌋₊ ≤ ⌊((l.length - 1 : ℕ) : ℝ)⌋₊ :=
        Nat.floor_le_floor hmul
    _ = l.length - 1 := Nat.floor_natCast _

lemma percentile_const {l : List ℝ} {c q : ℝ} (hne : l ≠ []) (hq0 : 0 ≤ q)
    (hq1 : q ≤ 100) (hc : ∀ v ∈ l, v = c) : percentile l q = c := by
  have hm : 1 ≤ l.length := List.length_pos.mpr hne
  set s := List.insertionSort (fun a b => a ≤ b) l with hs
  have hslen : s.length = l.length := length_insertionSort l
  have hsc : ∀ v ∈ s, v = c := fun v hv => hc v (mem_insertionSort.mp hv)
  have hlo := percentile_floor_lt hne hq0 hq1
  set i1 := ⌊q / 100 * ((l.length : ℝ) - 1)⌋₊ with hi1
  have hi1lt : i1 < s.length := by
    rw [hslen]; exact lt_of_le_of_lt hlo (Nat.sub_lt hm Nat.one_pos)
  have hi2lt : min (i1 + 1) (l.length - 1) < s.length := by
    rw [hslen]
    exact lt_of_le_of_lt (min_le_right _ _) (Nat.sub_lt hm Nat.one_pos)
  have hv1 : s.getD i1 0 = c := by
    rw [List.getD_eq_getElem s 0 hi1lt]
    exact hsc _ (List.getElem_mem _)
  have hv2 : s.getD (min (i1 + 1) (l.length - 1)) 0 = c := by
    rw [List.getD_eq_getElem s 0 hi2lt]
    exact hsc _ (List.getElem_mem _)
  simp only [percentile, ← hs, ← hi1, hv1, hv2]
  ring

lemma percentile_bounds {l : List ℝ} {lb ub q : ℝ} (hne : l ≠ []) (hq0 : 0 ≤ q)
    (hq1 : q ≤ 100) (hb : ∀ v ∈ l, lb ≤ v ∧ v ≤ ub) :
    lb ≤ percentile l q ∧ percentile l q ≤ ub := by
  have hm : 1 ≤ l.length := List.length_pos.mpr hne
  set s := List.insertionSort (fun a b => a ≤ b) l with hs
  have hslen : s.length = l.length := length_insertionSort l
  have hsb : ∀ v ∈ s, lb ≤ v ∧ v ≤ ub := fun v hv => hb v (mem_insertionSort.mp hv)
  have hsorted : s.Sorted (fun a b => a ≤ b) := List.sorted_insertionSort _ l
  have hlo := percentile_floor_lt hne hq0 hq1
  set hval : ℝ := q / 100 * ((l.length : ℝ) - 1) with hhval
  set i1 := ⌊hval⌋₊ with hi1
  set i2 := min (i1 + 1) (l.length - 1) with hi2
  have hi1lt : i1 < s.length := by
    rw [hslen]; exact lt_of_le_of_lt hlo (Nat.sub_lt hm Nat.one_pos)
  have hi2lt : i2 < s.length := by
    rw [hslen]
    exact lt_of_le_of_lt (min_le_right _ _) (Nat.sub_lt hm Nat.one_pos)
  have hi12 : i1 ≤ i2 := le_min (Nat.le_succ i1) hlo
  have hv12 : s.getD i1 0 ≤ s.getD i2 0 := by
    have hrel := hsorted.rel_get_of_le
      (Fin.mk_le_mk.mpr hi12 : (⟨i1, hi1lt⟩ : Fin s.length) ≤ ⟨i2, hi2lt⟩)
    rw [List.getD_eq_getElem s 0 hi1lt, List.getD_eq_getElem s 0 hi2lt]
    simpa [List.get_eq_getElem] using hrel
  have hvalnn : 0 ≤ hval := by
    have h2 : (0:ℝ) ≤ (l.length : ℝ) - 1 := by
      have : (1:ℝ) ≤ (l.length : ℝ) := by exact_mod_cast hm
      linarith
    exact mul_nonneg (div_nonneg hq0 (by norm_num)) h2
  have ht0 : 0 ≤ hval - (i1 : ℝ) := by
    have := Nat.floor_le hvalnn
    rw [← hi1] at this
    linarith
  have ht1 : hval - (i1 : ℝ) ≤ 1 := by
    have := Nat.lt_floor_add_one hval
    rw [← hi1] at this
    linarith
  have hmem1 : s.getD i1 0 ∈ s := by
    rw [List.getD_eq_getElem s 0 hi1lt]; exact List.getElem_mem _
  have hmem2 : s.getD i2 0 ∈ s := by
    rw [List.getD_eq_getElem s 0 hi2lt]; exact List.getElem_mem _
  have hb1 := hsb _ hmem1
  have hb2 := hsb _ hmem2
  have hdnn : 0 ≤ s.getD i2 0 - s.getD i1 0 := by linarith
  have hpe : percentile l q =
      s.getD i1 0 + (hval - (i1 : ℝ)) * (s.getD i2 0 - s.getD i1 0) := by
    simp only [percentile]
  rw [hpe]
  constructor
  · have h3 : 0 ≤ (hval - (i1 : ℝ)) * (s.getD i2 0 - s.getD i1 0) :=
      mul_nonneg ht0 hdnn
    linarith [hb1.1]
  · have h3 : (hval - (i1 : ℝ)) * (s.getD i2 0 - s.getD i1 0) ≤
        1 * (s.getD i2 0 - s.getD i1 0) := mul_le_mul_of_nonneg_right ht1 hdnn
    linarith [hb2.2]

/-! ### Counting entries by index -/

lemma countP_range_getD (l : List ℝ) (p : ℝ → Bool) :
    (List.range l.length).countP (fun i => p (l.getD i 0)) = l.countP p := by
  induction l with
  | nil => simp
  | cons a t ih =>
    rw [List.length_cons, List.range_succ_eq_map, List.countP_cons, List.countP_map,
      List.countP_cons]
    simp only [Function.comp_def, List.getD_cons_zero, List.getD_cons_succ]
    rw [ih]

lemma countP_weights (x : List ℝ) (sigma g : ℝ) (p : ℝ → Bool) :
    (weights x sigma g).countP p = x.countP (fun xi => p (gaussWeight sigma g xi)) := by
  rw [weights, List.countP_map]
  rfl

/-- `effCount` is the number of indices whose normalized weight exceeds 0.1,
with the guarded denominator. -/
lemma effCount_eq_length_filter (w : List ℝ) :
    effCount w = ((List.range w.length).filter
      (fun i => decide ((0.1 : ℝ) < w.getD i 0 /
        (if listMax w = 0 then 1 else listMax w)))).length := by
  rw [effCount, ← List.countP_eq_length_filter]
  exact (countP_range_getD w (fun wi => decide ((0.1 : ℝ) < wi /
    (if listMax w = 0 then 1 else listMax w)))).symm

/-- The guarded-division fallback: if the maximal weight is 0 then no entry
clears the 0.1 threshold, so the effective count is 0 (and no division by
zero is attempted, the denominator having been replaced by 1). -/
lemma effCount_of_listMax_eq_zero {w : List ℝ} (h : listMax w = 0) :
    effCount w = 0 := by
  rw [effCount, List.countP_eq_zero]
  intro wi hwi
  have hle : wi ≤ 0 := h ▸ le_listMax hwi
  rw [h, if_pos rfl]
  simp only [decide_eq_true_eq, not_lt]
  calc wi / 1 = wi := div_one wi
    _ ≤ 0 := hle
    _ ≤ 0.1 := by norm_num

/-! ### The maximal weight and monotonicity of `effCount` in `sigma` -/

lemma listMax_weights {x : List ℝ} (sigma g : ℝ) (hσ : sigma ≠ 0) (hx : x ≠ []) :
    listMax (weights x sigma g) =
      Real.exp (-(listMin (x.map fun xi => (xi - g) ^ 2)) / (2 * sigma ^ 2)) := by
  have hc : (0:ℝ) < 2 * sigma ^ 2 := by positivity
  have hene : (x.map fun xi => (xi - g) ^ 2) ≠ [] := by simp [hx]
  have hmem : listMin (x.map fun xi => (xi - g) ^ 2) ∈ x.map fun xi => (xi - g) ^ 2 :=
    listMin_mem hene
  obtain ⟨x0, hx0, hx0e⟩ := List.mem_map.mp hmem
  apply le_antisymm
  · have hwmem : listMax (weights x sigma g) ∈ weights x sigma g :=
      listMax_mem (by simp [weights, hx])
    obtain ⟨xi, hxi, hxiw⟩ := List.mem_map.mp hwmem
    rw [← hxiw, gaussWeight, Real.exp_le_exp]
    apply (div_le_div_iff_of_pos_right hc).mpr
    exact neg_le_neg (listMin_le (List.mem_map.mpr ⟨xi, hxi, rfl⟩))
  · have hval : gaussWeight sigma g x0 =
        Real.exp (-(listMin (x.map fun xi => (xi - g) ^ 2)) / (2 * sigma ^ 2)) := by
      rw [gaussWeight, hx0e]
    exact hval ▸ le_listMax (List.mem_map.mpr ⟨x0, hx0, rfl⟩)

/-- The relevance test `0.1 < w_i / max(w)` rewritten through logarithms:
it holds iff the squared distance of `x_i` to `g` exceeds the minimal
squared distance by less than `log 10 * 2 * sigma^2`. -/
lemma relevance_iff {x : List ℝ} {sigma : ℝ} (g : ℝ) (hσ : 0 < sigma) (hx : x ≠ [])
    (xi : ℝ) :
    ((0.1 : ℝ) < gaussWeight sigma g xi /
        (if listMax (weights x sigma g) = 0 then 1 else listMax (weights x sigma g))) ↔
      (xi - g) ^ 2 - listMin (x.map fun x0 => (x0 - g) ^ 2) <
        Real.log 10 * (2 * sigma ^ 2) := by
  have hc : (0:ℝ) < 2 * sigma ^ 2 := by positivity
  have hM := listMax_weights sigma g (ne_of_gt hσ) hx
  have hMne : listMax (weights x sigma g) ≠ 0 := by
    rw [hM]; exact Real.exp_ne_zero _
  rw [if_neg hMne, hM, gaussWeight, ← Real.exp_sub, div_sub_div_same]
  constructor
  · intro h
    have hlog := (Real.log_lt_iff_lt_exp (by norm_num : (0:ℝ) < 0.1)).mpr h
    have h01 : Real.log (0.1 : ℝ) = -Real.log 10 := by
      rw [show (0.1 : ℝ) = (10 : ℝ)⁻¹ by norm_num, Real.log_inv]
    rw [h01, lt_div_iff₀ hc] at hlog
    nlinarith
  · intro h
    apply (Real.log_lt_iff_lt_exp (by norm_num : (0:ℝ) < 0.1)).mp
    have h01 : Real.log (0.1 : ℝ) = -Real.log 10 := by
      rw [show (0.1 : ℝ) = (10 : ℝ)⁻¹ by norm_num, Real.log_inv]
    rw [h01, lt_div_iff₀ hc]
    nlinarith

/-! ### Characterizing the rows of the grid loop -/

lemma kcPoint_fst (x y : List ℝ) (sigma : ℝ) (nb mn seed pos : ℕ) (g : ℝ) :
    (kcPoint x y sigma nb mn seed pos g).1 =
      if effCount (weights x sigma g) < mn ∨ (weights x sigma g).sum = 0 then
        ⟨g, none, none, none, effCount (weights x sigma g)⟩
      else
        ⟨g, some (average y (weights x sigma g)),
          some (percentile (bootMeans y (weights x sigma g) seed pos nb) 25),
          some (percentile (bootMeans y (weights x sigma g) seed pos nb) 75),
          effCount (weights x sigma g)⟩ := by
  simp only [kcPoint]
  split <;> rfl

lemma kcRows_forall₂ (x y : List ℝ) (sigma : ℝ) (nb mn seed : ℕ) :
    ∀ (gs : List ℝ) (pos : ℕ),
      List.Forall₂ (fun (row : Row) (g : ℝ) =>
          ∃ pos2 : ℕ, row = (kcPoint x y sigma nb mn seed pos2 g).1)
        (kcRows x y sigma nb mn seed gs pos) gs := by
  intro gs
  induction gs with
  | nil => intro pos; exact List.Forall₂.nil
  | cons g gs ih =>
    intro pos
    exact List.Forall₂.cons ⟨pos, rfl⟩ (ih _)

lemma kcRows_mem (x y : List ℝ) (sigma : ℝ) (nb mn seed : ℕ) :
    ∀ (gs : List ℝ) (pos : ℕ) (row : Row), row ∈ kcRows x y sigma nb mn seed gs pos →
      ∃ g ∈ gs, ∃ pos2 : ℕ, row = (kcPoint x y sigma nb mn seed pos2 g).1 := by
  intro gs
  induction gs with
  | nil => intro pos row h; simp [kcRows] at h
  | cons g gs ih =>
    intro pos row h
    rcases List.mem_cons.mp h with h1 | h1
    · exact ⟨g, List.mem_cons_self g gs, pos, h1⟩
    · obtain ⟨g0, hg0, hrest⟩ := ih _ row h1
      exact ⟨g0, List.mem_cons_of_mem _ hg0, hrest⟩

lemma kcRows_map_shock (x y : List ℝ) (sigma : ℝ) (nb mn seed : ℕ) :
    ∀ (gs : List ℝ) (pos : ℕ),
      (kcRows x y sigma nb mn seed gs pos).map Row.shock = gs := by
  intro gs
  induction gs with
  | nil => intro pos; rfl
  | cons g gs ih =>
    intro pos
    rw [kcRows, List.map_cons, ih _]
    congr 1
    rw [kcPoint_fst]
    split <;> rfl

/-! ### Claim theorems -/

/-- C6: for every call, the returned table has exactly `len(grid)` rows in
grid order, and the `shock` column echoes the grid values unchanged.
(`est`, `p25`, `p75` being nullable floats and `effN` a non-nullable
non-negative integer is carried by the `Row` type: `Option ℝ` vs `ℕ`.) -/
theorem kernel_curve_shape (x y grid : List ℝ) (sigma : ℝ) (nb mn seed : ℕ) :
    (kernel_curve x y grid sigma nb mn seed).map Row.shock = grid ∧
      (kernel_curve x y grid sigma nb mn seed).length = grid.length := by
  have hmap := kcRows_map_shock x y sigma nb mn seed grid 0
  refine ⟨hmap, ?_⟩
  have := congrArg List.length hmap
  simpa using this

/-- C2: the estimator is deterministic — two calls on identical arguments
(including the seed, from which the call-scoped generator stream is
initialized) return tables identical in every field of every row. -/
theorem kernel_curve_deterministic (x y grid : List ℝ) (sigma : ℝ) (nb mn seed : ℕ) :
    List.Forall₂ (fun r1 r2 : Row => r1.shock = r2.shock ∧ r1.est = r2.est ∧
        r1.p25 = r2.p25 ∧ r1.p75 = r2.p75 ∧ r1.effN = r2.effN)
      (kernel_curve x y grid sigma nb mn seed)
      (kernel_curve x y grid sigma nb mn seed) := by
  apply List.forall₂_same.mpr
  intro r _
  exact ⟨rfl, rfl, rfl, rfl, rfl⟩

/-- C4: at every grid point the weights are the Gaussian kernel values
`exp(-(x_i - g)^2 / (2*sigma^2))`; `effCount` counts the indices whose
weight, divided by the maximal weight — with the denominator replaced by 1
when the maximum is 0 — exceeds 0.1; and in the all-zero-weights case the
guard raises nothing and the effective count resolves to 0. -/
theorem kernel_curve_weights_effN (x : List ℝ) (sigma g : ℝ) (w : List ℝ) :
    weights x sigma g = x.map (fun xi => Real.exp (-((xi - g) ^ 2) / (2 * sigma ^ 2))) ∧
      effCount w = ((List.range w.length).filter
        (fun i => decide ((0.1 : ℝ) < w.getD i 0 /
          (if listMax w = 0 then 1 else listMax w)))).length ∧
      (listMax w = 0 → effCount w = 0) := by
  refine ⟨rfl, effCount_eq_length_filter w, fun h => effCount_of_listMax_eq_zero h⟩

/-- C7: for fixed `x`, `y` and grid point `g`, the effective sample count
is monotone non-decreasing in the bandwidth `sigma`. -/
theorem effN_monotone_in_sigma (x : List ℝ) (g sigma sigma' : ℝ)
    (hσ : 0 < sigma) (hσσ : sigma ≤ sigma') :
    effCount (weights x sigma g) ≤ effCount (weights x sigma' g) := by
  rcases eq_or_ne x [] with hx | hx
  · subst hx
    simp [weights, effCount]
  · have hσ' : 0 < sigma' := lt_of_lt_of_le hσ hσσ
    rw [effCount, countP_weights, effCount, countP_weights]
    apply List.countP_mono_left
    intro xi hxi hcond
    rw [decide_eq_true_eq] at hcond ⊢
    have h1 := (relevance_iff g hσ hx xi).mp hcond
    apply (relevance_iff g hσ' hx xi).mpr
    have hlog : 0 ≤ Real.log 10 := le_of_lt (Real.log_pos (by norm_num))
    have hsq : sigma ^ 2 ≤ sigma' ^ 2 := by nlinarith
    nlinarith

/-- Witness for C7 at a concrete input: `x = [0]`, `g = 0`, bandwidths 1 ≤ 2. -/
theorem effN_monotone_in_sigma_witness :
    (0:ℝ) < 1 ∧ (1:ℝ) ≤ 2 ∧
      effCount (weights [0] 1 0) ≤ effCount (weights [0] 2 0) :=
  ⟨by norm_num, by norm_num,
    effN_monotone_in_sigma [0] 0 1 2 (by norm_num) (by norm_num)⟩

/-- C3: in every result row of a valid call, `est`, `p25`, `p75` are
jointly null or jointly non-null; they are null exactly when the field
`effN` of the row is below `min_eff_n` or the raw weight sum is exactly zero; and
`effN` is always the computed effective count, whether or not the point
estimate was produced. -/
theorem kernel_curve_null_triple (x y grid : List ℝ) (sigma : ℝ) (nb mn seed : ℕ)
    (hv : ValidArgs x y sigma nb mn) :
    List.Forall₂ (fun (row : Row) (g : ℝ) =>
        (row.est = none ↔ row.p25 = none) ∧ (row.est = none ↔ row.p75 = none) ∧
        (row.est = none ↔ (row.effN < mn ∨ (weights x sigma g).sum = 0)) ∧
        row.effN = effCount (weights x sigma g))
      (kernel_curve x y grid sigma nb mn seed) grid := by
  refine (kcRows_forall₂ x y sigma nb mn seed grid 0).imp ?_
  intro row g h
  obtain ⟨pos2, hrow⟩ := h
  subst hrow
  rw [kcPoint_fst]
  split
  · next hcond => exact ⟨Iff.rfl, Iff.rfl, ⟨fun _ => hcond, fun _ => rfl⟩, rfl⟩
  · next hcond =>
    exact ⟨iff_of_false (by simp) (by simp), iff_of_false (by simp) (by simp),
      iff_of_false (by simp) hcond, rfl⟩

/-- Witness for C3 at the concrete valid call
`x = [0]`, `y = [5]`, `grid = [0]`, `sigma = 1`, `n_boot = 1`,
`min_eff_n = 1`, `seed = 0`. -/
theorem kernel_curve_null_triple_witness :
    ValidArgs [0] [(5:ℝ)] 1 1 1 ∧
      List.Forall₂ (fun (row : Row) (g : ℝ) =>
          (row.est = none ↔ row.p25 = none) ∧ (row.est = none ↔ row.p75 = none) ∧
          (row.est = none ↔ (row.effN < 1 ∨ (weights [0] 1 g).sum = 0)) ∧
          row.effN = effCount (weights [0] 1 g))
        (kernel_curve [0] [(5:ℝ)] [0] 1 1 1 0) [0] := by
  have hval : ValidArgs [0] [(5:ℝ)] 1 1 1 :=
    ⟨rfl, le_refl _, one_pos, le_refl _, le_refl _⟩
  exact ⟨hval, kernel_curve_null_triple [0] [(5:ℝ)] [0] 1 1 1 0 hval⟩

/-- C5: in every result row of a valid call that passes the degeneracy
guard, `est` is the weighted mean `sum(w*y)/sum(w)`, and `p25`/`p75` are
the 25th and 75th percentiles of the `n_boot` bootstrap means, each
resample drawing `len(x)` indices with probability `w_i / sum(w)` and
averaging `y` at those indices with the original weights `w`
(see `bootMeans`, `drawSample`, `pickIndex`). -/
theorem kernel_curve_estimates (x y grid : List ℝ) (sigma : ℝ) (nb mn seed : ℕ)
    (hv : ValidArgs x y sigma nb mn) :
    List.Forall₂ (fun (row : Row) (g : ℝ) =>
        ¬(effCount (weights x sigma g) < mn ∨ (weights x sigma g).sum = 0) →
          ∃ pos : ℕ,
            row.est = some (average y (weights x sigma g)) ∧
            row.p25 = some (percentile (bootMeans y (weights x sigma g) seed pos nb) 25) ∧
            row.p75 = some (percentile (bootMeans y (weights x sigma g) seed pos nb) 75))
      (kernel_curve x y grid sigma nb mn seed) grid := by
  refine (kcRows_forall₂ x y sigma nb mn seed grid 0).imp ?_
  intro row g h
  obtain ⟨pos2, hrow⟩ := h
  subst hrow
  rw [kcPoint_fst]
  split
  · next hcond => exact fun hn => absurd hcond hn
  · next hcond => exact fun _ => ⟨pos2, rfl, rfl, rfl⟩

/-- Witness for C5 at the concrete valid call
`x = [0]`, `y = [5]`, `grid = [0]`, `sigma = 1`, `n_boot = 1`,
`min_eff_n = 1`, `seed = 0`. -/
theorem kernel_curve_estimates_witness :
    ValidArgs [0] [(5:ℝ)] 1 1 1 ∧
      List.Forall₂ (fun (row : Row) (g : ℝ) =>
          ¬(effCount (weights [0] 1 g) < 1 ∨ (weights [0] 1 g).sum = 0) →
            ∃ pos : ℕ,
              row.est = some (average [(5:ℝ)] (weights [0] 1 g)) ∧
              row.p25 = some (percentile (bootMeans [(5:ℝ)] (weights [0] 1 g) 0 pos 1) 25) ∧
              row.p75 = some (percentile (bootMeans [(5:ℝ)] (weights [0] 1 g) 0 pos 1) 75))
        (kernel_curve [0] [(5:ℝ)] [0] 1 1 1 0) [0] := by
  have hval : ValidArgs [0] [(5:ℝ)] 1 1 1 :=
    ⟨rfl, le_refl _, one_pos, le_refl _, le_refl _⟩
  exact ⟨hval, kernel_curve_estimates [0] [(5:ℝ)] [0] 1 1 1 0 hval⟩

/-! ### Facts about the resampled indices -/

lemma drawSample_mem_lt {p : List ℝ} (hps : p.sum = 1) (seed pos n : ℕ) :
    ∀ i ∈ drawSample p seed pos n, i < p.length := by
  intro i hi
  obtain ⟨j, _, rfl⟩ := List.mem_map.mp hi
  exact pickIndex_lt (uDraw_nonneg _ _) (by rw [hps]; exact uDraw_lt_one _ _)

lemma normWeights_sum_one {x : List ℝ} (sigma g : ℝ) (hxne : x ≠ []) :
    ((weights x sigma g).map (fun wi => wi / (weights x sigma g).sum)).sum = 1 := by
  rw [sum_map_div]
  exact div_self (ne_of_gt (weights_sum_pos sigma g hxne))

lemma resample_index_lt {x : List ℝ} (sigma g : ℝ) (hxne : x ≠ []) (seed pos : ℕ) :
    ∀ i ∈ drawSample ((weights x sigma g).map
        (fun wi => wi / (weights x sigma g).sum)) seed pos (weights x sigma g).length,
      i < x.length := by
  intro i hi
  have h1 := drawSample_mem_lt (normWeights_sum_one sigma g hxne) seed pos
    (weights x sigma g).length i hi
  rw [List.length_map, weights_length] at h1
  exact h1

lemma drawSample_length (p : List ℝ) (seed pos n : ℕ) :
    (drawSample p seed pos n).length = n := by
  rw [drawSample, List.length_map, List.length_range]

/-- C10: at every grid point passing the degeneracy guard, each index
drawn by the weighted bootstrap carries a strictly positive weight, and
the weight sum of each resample is strictly positive, so the weighted-mean
division inside the bootstrap loop never divides by zero. -/
theorem bootstrap_weights_positive (x y : List ℝ) (sigma g : ℝ) (nb mn seed pos : ℕ)
    (hv : ValidArgs x y sigma nb mn)
    (hguard : mn ≤ effCount (weights x sigma g) ∧ 0 < (weights x sigma g).sum) :
    (∀ i ∈ drawSample ((weights x sigma g).map
        (fun wi => wi / (weights x sigma g).sum)) seed pos (weights x sigma g).length,
        0 < (weights x sigma g).getD i 0) ∧
      0 < ((drawSample ((weights x sigma g).map
        (fun wi => wi / (weights x sigma g).sum)) seed pos
          (weights x sigma g).length).map
        (fun i => (weights x sigma g).getD i 0)).sum := by
  have hxne : x ≠ [] := List.length_pos.mp hv.2.1
  have hidx := resample_index_lt sigma g hxne seed pos
  have hpos : ∀ i ∈ drawSample ((weights x sigma g).map
      (fun wi => wi / (weights x sigma g).sum)) seed pos (weights x sigma g).length,
      0 < (weights x sigma g).getD i 0 := by
    intro i hi
    have hlt : i < (weights x sigma g).length := by
      rw [weights_length]; exact hidx i hi
    rw [List.getD_eq_getElem _ 0 hlt]
    exact weights_pos x sigma g _ (List.getElem_mem _)
  refine ⟨hpos, List.sum_pos _ ?_ ?_⟩
  · intro a ha
    obtain ⟨i, hi, rfl⟩ := List.mem_map.mp ha
    exact hpos i hi
  · have hl : ((drawSample ((weights x sigma g).map
        (fun wi => wi / (weights x sigma g).sum)) seed pos
          (weights x sigma g).length).map
        (fun i => (weights x sigma g).getD i 0)).length = x.length := by
      rw [List.length_map, drawSample_length, weights_length]
    intro hnil
    rw [hnil, List.length_nil] at hl
    have := hv.2.1
    omega

/-! ### Bounds on the bootstrap means -/

lemma resample_average_facts {x y : List ℝ} (sigma g : ℝ) (hxne : x ≠ [])
    (hlen : x.length = y.length) (seed pos : ℕ) :
    ((drawSample ((weights x sigma g).map (fun wi => wi / (weights x sigma g).sum))
        seed pos (weights x sigma g).length).map (fun i => y.getD i 0)).length =
      ((drawSample ((weights x sigma g).map (fun wi => wi / (weights x sigma g).sum))
        seed pos (weights x sigma g).length).map
          (fun i => (weights x sigma g).getD i 0)).length ∧
    (∀ v ∈ (drawSample ((weights x sigma g).map (fun wi => wi / (weights x sigma g).sum))
        seed pos (weights x sigma g).length).map (fun i => y.getD i 0), v ∈ y) ∧
    (∀ wi ∈ (drawSample ((weights x sigma g).map (fun wi => wi / (weights x sigma g).sum))
        seed pos (weights x sigma g).length).map
          (fun i => (weights x sigma g).getD i 0), 0 < wi) ∧
    0 < ((drawSample ((weights x sigma g).map (fun wi => wi / (weights x sigma g).sum))
        seed pos (weights x sigma g).length).map
          (fun i => (weights x sigma g).getD i 0)).sum := by
  have hidx := resample_index_lt sigma g hxne seed pos
  refine ⟨by rw [List.length_map, List.length_map], ?_, ?_, ?_⟩
  · intro v hv
    obtain ⟨i, hi, rfl⟩ := List.mem_map.mp hv
    have hlt : i < y.length := by rw [← hlen]; exact hidx i hi
    rw [List.getD_eq_getElem y 0 hlt]
    exact List.getElem_mem _
  · intro wi hwi
    obtain ⟨i, hi, rfl⟩ := List.mem_map.mp hwi
    have hlt : i < (weights x sigma g).length := by
      rw [weights_length]; exact hidx i hi
    rw [List.getD_eq_getElem _ 0 hlt]
    exact weights_pos x sigma g _ (List.getElem_mem _)
  · refine List.sum_pos _ ?_ ?_
    · intro wi hwi
      obtain ⟨i, hi, rfl⟩ := List.mem_map.mp hwi
      have hlt : i < (weights x sigma g).length := by
        rw [weights_length]; exact hidx i hi
      rw [List.getD_eq_getElem _ 0 hlt]
      exact weights_pos x sigma g _ (List.getElem_mem _)
    · intro hnil
      have hl := congrArg List.length hnil
      rw [List.length_map, drawSample_length, weights_length, List.length_nil] at hl
      have hxp : 0 < x.length := List.length_pos.mpr hxne
      omega

lemma bootMeans_mem_bounds {x y : List ℝ} (sigma g : ℝ) (hxne : x ≠ [])
    (hlen : x.length = y.length) (seed pos nb : ℕ) :
    ∀ u ∈ bootMeans y (weights x sigma g) seed pos nb,
      listMin y ≤ u ∧ u ≤ listMax y := by
  intro u hu
  rw [bootMeans] at hu
  obtain ⟨b, _, rfl⟩ := List.mem_map.mp hu
  obtain ⟨hl, hval, hwpos, hwsum⟩ :=
    resample_average_facts sigma g hxne hlen seed (pos + b * (weights x sigma g).length)
  exact average_bounds hl
    (fun v hv => ⟨listMin_le (hval v hv), le_listMax (hval v hv)⟩)
    (fun wi hwi => le_of_lt (hwpos wi hwi)) hwsum

lemma bootMeans_mem_const {x y : List ℝ} {c : ℝ} (sigma g : ℝ) (hxne : x ≠ [])
    (hlen : x.length = y.length) (hc : ∀ u ∈ y, u = c) (seed pos nb : ℕ) :
    ∀ u ∈ bootMeans y (weights x sigma g) seed pos nb, u = c := by
  intro u hu
  rw [bootMeans] at hu
  obtain ⟨b, _, rfl⟩ := List.mem_map.mp hu
  obtain ⟨hl, hval, _, hwsum⟩ :=
    resample_average_facts sigma g hxne hlen seed (pos + b * (weights x sigma g).length)
  exact average_const hl (fun v hv => hc v (hval v hv)) (ne_of_gt hwsum)

lemma bootMeans_length (y w : List ℝ) (seed pos nb : ℕ) :
    (bootMeans y w seed pos nb).length = nb := by
  rw [bootMeans, List.length_map, List.length_range]

lemma bootMeans_ne_nil {y w : List ℝ} {seed pos nb : ℕ} (hnb : 1 ≤ nb) :
    bootMeans y w seed pos nb ≠ [] := by
  intro h
  have hc := congrArg List.length h
  rw [bootMeans_length, List.length_nil] at hc
  omega

/-- C9: in every valid call, every non-null `est`, `p25` or `p75` value
lies between `min(y)` and `max(y)` inclusive — the point estimate and the
bootstrap band are weighted averages of `y` with non-negative weights and
percentiles thereof, and can never leave the range of the outcomes. -/
theorem kernel_curve_band_in_y_range (x y grid : List ℝ) (sigma : ℝ) (nb mn seed : ℕ)
    (hv : ValidArgs x y sigma nb mn) :
    ∀ row ∈ kernel_curve x y grid sigma nb mn seed, ∀ v : ℝ,
      (row.est = some v ∨ row.p25 = some v ∨ row.p75 = some v) →
        listMin y ≤ v ∧ v ≤ listMax y := by
  obtain ⟨hlen, hxlen, _, hnb, _⟩ := hv
  have hxne : x ≠ [] := List.length_pos.mp hxlen
  intro row hrow v hopt
  obtain ⟨g, _, pos2, hrow_eq⟩ := kcRows_mem x y sigma nb mn seed grid 0 row hrow
  subst hrow_eq
  rw [kcPoint_fst] at hopt
  by_cases hcond : effCount (weights x sigma g) < mn ∨ (weights x sigma g).sum = 0
  · rw [if_pos hcond] at hopt
    simp at hopt
  · rw [if_neg hcond] at hopt
    have hylen : y.length = (weights x sigma g).length := by
      rw [weights_length]; exact hlen.symm
    have hyb : ∀ u ∈ y, listMin y ≤ u ∧ u ≤ listMax y :=
      fun u hu => ⟨listMin_le hu, le_listMax hu⟩
    have hest := average_bounds hylen hyb
      (fun wi hwi => le_of_lt (weights_pos x sigma g wi hwi))
      (weights_sum_pos sigma g hxne)
    have hbsb := bootMeans_mem_bounds sigma g hxne hlen seed pos2 nb
    have hbs_ne : bootMeans y (weights x sigma g) seed pos2 nb ≠ [] :=
      bootMeans_ne_nil hnb
    have h25 := percentile_bounds hbs_ne (by norm_num : (0:ℝ) ≤ 25)
      (by norm_num : (25:ℝ) ≤ 100) hbsb
    have h75 := percentile_bounds hbs_ne (by norm_num : (0:ℝ) ≤ 75)
      (by norm_num : (75:ℝ) ≤ 100) hbsb
    rcases hopt with h | h | h
    · have hv' : average y (weights x sigma g) = v := by simpa using h
      rw [← hv']; exact hest
    · have hv' : percentile (bootMeans y (weights x sigma g) seed pos2 nb) 25 = v := by
        simpa using h
      rw [← hv']; exact h25
    · have hv' : percentile (bootMeans y (weights x sigma g) seed pos2 nb) 75 = v := by
        simpa using h
      rw [← hv']; exact h75

/-! ### Concrete evaluation of a one-point call -/

lemma effCount_single_pos {a : ℝ} (ha : 0.1 < a) : effCount [a] = 1 := by
  have hane : a ≠ 0 := by intro h; rw [h] at ha; norm_num at ha
  have hmax : listMax [a] = a := rfl
  rw [effCount, hmax, if_neg hane, List.countP_singleton]
  rw [div_self hane]
  norm_num

lemma pickIndex_single_lt {a u : ℝ} (h : u < a) : pickIndex [a] u = 0 := by
  simp only [pickIndex]
  rw [if_pos h]

lemma drawSample_single_one (seed pos : ℕ) : drawSample [(1:ℝ)] seed pos 1 = [0] := by
  rw [drawSample, show List.range 1 = [0] from rfl, List.map_cons, List.map_nil,
    Nat.add_zero]
  rw [pickIndex_single_lt (uDraw_lt_one seed pos)]

lemma average_single (c b : ℝ) : average [c] [b] = c * b / b := by
  simp [average]

lemma bootMeans_single (c : ℝ) (seed pos : ℕ) :
    bootMeans [c] [(1:ℝ)] seed pos 1 = [c] := by
  rw [bootMeans, show List.range 1 = [0] from rfl, List.map_cons, List.map_nil]
  have hmap : ([(1:ℝ)].map (fun wi => wi / List.sum [(1:ℝ)])) = [1] := by
    norm_num
  have hlen1 : ([(1:ℝ)]).length = 1 := rfl
  simp only [hmap, hlen1, Nat.zero_mul, Nat.add_zero]
  rw [drawSample_single_one seed pos]
  simp only [List.map_cons, List.map_nil, List.getD_cons_zero]
  rw [average_single]
  norm_num

lemma kc_single (c : ℝ) (mn seed : ℕ) (hmn : mn ≤ 1) :
    kernel_curve [0] [c] [0] 1 1 mn seed =
      [⟨0, some c, some c, some c, 1⟩] := by
  have hw : weights [0] 1 0 = [1] := by
    simp [weights, gaussWeight]
  have heff : effCount (weights [0] 1 0) = 1 := by
    rw [hw]; exact effCount_single_pos (by norm_num)
  have hsum : (weights [0] 1 0).sum = 1 := by rw [hw]; simp
  have hguard : ¬(effCount (weights [0] 1 0) < mn ∨ (weights [0] 1 0).sum = 0) := by
    rw [heff, hsum]
    push_neg
    exact ⟨by omega, one_ne_zero⟩
  have havg : average [c] (weights [0] 1 0) = c := by
    rw [hw, average_single]; norm_num
  have hboot : bootMeans [c] (weights [0] 1 0) seed 0 1 = [c] := by
    rw [hw]; exact bootMeans_single c seed 0
  have h25 : percentile (bootMeans [c] (weights [0] 1 0) seed 0 1) 25 = c := by
    rw [hboot]
    exact percentile_const (by simp) (by norm_num) (by norm_num) (by simp)
  have h75 : percentile (bootMeans [c] (weights [0] 1 0) seed 0 1) 75 = c := by
    rw [hboot]
    exact percentile_const (by simp) (by norm_num) (by norm_num) (by simp)
  rw [kernel_curve]
  rw [kcRows, kcRows]
  rw [kcPoint_fst, if_neg hguard]
  rw [havg, h25, h75, heff]

/-- C8: if all outcomes equal a constant `c`, every row with a non-null
estimate has `est = c` and `p25 = p75 = c` exactly (the embedding works in
exact real arithmetic), for any `x`, `grid`, `sigma`, `n_boot`, `seed`. -/
theorem kernel_curve_constant_y (x y grid : List ℝ) (sigma : ℝ) (nb mn seed : ℕ)
    (c : ℝ) (hv : ValidArgs x y sigma nb mn) (hc : ∀ u ∈ y, u = c) :
    ∀ row ∈ kernel_curve x y grid sigma nb mn seed, row.est ≠ none →
      row.est = some c ∧ row.p25 = some c ∧ row.p75 = some c := by
  obtain ⟨hlen, hxlen, _, hnb, _⟩ := hv
  have hxne : x ≠ [] := List.length_pos.mp hxlen
  intro row hrow hne
  obtain ⟨g, _, pos2, hrow_eq⟩ := kcRows_mem x y sigma nb mn seed grid 0 row hrow
  subst hrow_eq
  rw [kcPoint_fst] at hne ⊢
  by_cases hcond : effCount (weights x sigma g) < mn ∨ (weights x sigma g).sum = 0
  · rw [if_pos hcond] at hne
    simp at hne
  · rw [if_neg hcond]
    have hylen : y.length = (weights x sigma g).length := by
      rw [weights_length]; exact hlen.symm
    have havg : average y (weights x sigma g) = c :=
      average_const hylen hc (ne_of_gt (weights_sum_pos sigma g hxne))
    have hbsc := bootMeans_mem_const sigma g hxne hlen hc seed pos2 nb
    have hbs_ne : bootMeans y (weights x sigma g) seed pos2 nb ≠ [] :=
      bootMeans_ne_nil hnb
    have h25 := percentile_const hbs_ne (by norm_num : (0:ℝ) ≤ 25)
      (by norm_num : (25:ℝ) ≤ 100) hbsc
    have h75 := percentile_const hbs_ne (by norm_num : (0:ℝ) ≤ 75)
      (by norm_num : (75:ℝ) ≤ 100) hbsc
    refine ⟨?_, ?_, ?_⟩
    · show some (average y (weights x sigma g)) = some c
      rw [havg]
    · show some (percentile (bootMeans y (weights x sigma g) seed pos2 nb) 25) = some c
      rw [h25]
    · show some (percentile (bootMeans y (weights x sigma g) seed pos2 nb) 75) = some c
      rw [h75]

/-- Witness for C8 at the concrete valid call with constant outcomes
`y = [5]`. -/
theorem kernel_curve_constant_y_witness :
    ValidArgs [0] [(5:ℝ)] 1 1 1 ∧ (∀ u ∈ [(5:ℝ)], u = 5) ∧
      (∀ row ∈ kernel_curve [0] [(5:ℝ)] [0] 1 1 1 0, row.est ≠ none →
        row.est = some 5 ∧ row.p25 = some 5 ∧ row.p75 = some 5) := by
  have hval : ValidArgs [0] [(5:ℝ)] 1 1 1 :=
    ⟨rfl, le_refl _, one_pos, le_refl _, le_refl _⟩
  have hc : ∀ u ∈ [(5:ℝ)], u = 5 := by
    intro u hu
    simpa using hu
  exact ⟨hval, hc, kernel_curve_constant_y [0] [(5:ℝ)] [0] 1 1 1 0 5 hval hc⟩

/-- Witness for C9 at the concrete valid call. -/
theorem kernel_curve_band_in_y_range_witness :
    ValidArgs [0] [(5:ℝ)] 1 1 1 ∧
      (∀ row ∈ kernel_curve [0] [(5:ℝ)] [0] 1 1 1 0, ∀ v : ℝ,
        (row.est = some v ∨ row.p25 = some v ∨ row.p75 = some v) →
          listMin [(5:ℝ)] ≤ v ∧ v ≤ listMax [(5:ℝ)]) := by
  have hval : ValidArgs [0] [(5:ℝ)] 1 1 1 :=
    ⟨rfl, le_refl _, one_pos, le_refl _, le_refl _⟩
  exact ⟨hval, kernel_curve_band_in_y_range [0] [(5:ℝ)] [0] 1 1 1 0 hval⟩

/-- Witness for C10 at the concrete valid call and grid point `g = 0`. -/
theorem bootstrap_weights_positive_witness :
    ValidArgs [0] [(5:ℝ)] 1 1 1 ∧
      (1 ≤ effCount (weights [0] 1 0) ∧ 0 < (weights [0] 1 0).sum) ∧
      ((∀ i ∈ drawSample ((weights [0] 1 0).map
          (fun wi => wi / (weights [0] 1 0).sum)) 0 0 (weights [0] 1 0).length,
          0 < (weights [0] 1 0).getD i 0) ∧
        0 < ((drawSample ((weights [0] 1 0).map
          (fun wi => wi / (weights [0] 1 0).sum)) 0 0
            (weights [0] 1 0).length).map
          (fun i => (weights [0] 1 0).getD i 0)).sum) := by
  have hval : ValidArgs [0] [(5:ℝ)] 1 1 1 :=
    ⟨rfl, le_refl _, one_pos, le_refl _, le_refl _⟩
  have hw : weights [0] 1 0 = [1] := by simp [weights, gaussWeight]
  have hguard : 1 ≤ effCount (weights [0] 1 0) ∧ 0 < (weights [0] 1 0).sum := by
    constructor
    · rw [hw, effCount_single_pos (by norm_num)]
    · rw [hw]; norm_num
  exact ⟨hval, hguard,
    bootstrap_weights_positive [0] [(5:ℝ)] 1 0 1 1 0 0 hval hguard⟩

/-- C1 counterexample: the call `kernel_curve([0], [5], [0], sigma=1,
n_boot=1, min_eff_n=0, seed=0)` violates the precondition
`min_eff_n >= 1`, yet it does not fail: it performs the full weighting
arithmetic and returns a complete table with a computed estimate.  (The
code has no argument validation; the invalid-length scenario of the spec
likewise returns a full all-null table under the default `min_eff_n=8`.) -/
theorem kernel_curve_invalid_args_full_output :
    ¬ ValidArgs [0] [(5:ℝ)] 1 1 0 ∧
      kernel_curve [0] [(5:ℝ)] [0] 1 1 0 0 = [⟨0, some 5, some 5, some 5, 1⟩] := by
  constructor
  · intro h
    have h5 := h.2.2.2.2
    omega
  · exact kc_single 5 0 0 (by omega)

/-- C1 (amended): `kernel_curve` performs no argument validation and has
no `InvalidArgument` error path: a call whose arguments violate the
preconditions (`min_eff_n = 0`, or a negative bandwidth) proceeds with the
Gaussian weighting arithmetic at every grid point and returns a complete
table of `len(grid)` rows, with `effN` computed from the weights in every
row. -/
theorem kernel_curve_no_validation (x y grid : List ℝ) (sigma : ℝ) (nb mn seed : ℕ)
    (hlen : x.length = y.length) (hx : 1 ≤ x.length) (hviol : mn = 0 ∨ sigma < 0) :
    ¬ ValidArgs x y sigma nb mn ∧
      (kernel_curve x y grid sigma nb mn seed).map Row.shock = grid ∧
      List.Forall₂ (fun (row : Row) (g : ℝ) => row.effN = effCount (weights x sigma g))
        (kernel_curve x y grid sigma nb mn seed) grid := by
  refine ⟨?_, kcRows_map_shock x y sigma nb mn seed grid 0, ?_⟩
  · intro h
    rcases hviol with h0 | h0
    · have h5 := h.2.2.2.2
      omega
    · have h3 := h.2.2.1
      linarith
  · refine (kcRows_forall₂ x y sigma nb mn seed grid 0).imp ?_
    intro row g hpos
    obtain ⟨pos2, hrow⟩ := hpos
    subst hrow
    rw [kcPoint_fst]
    split <;> rfl

/-- Witness for the amended C1 at the concrete invalid call
(`min_eff_n = 0`). -/
theorem kernel_curve_no_validation_witness :
    ([(0:ℝ)].length = [(5:ℝ)].length) ∧ (1 ≤ [(0:ℝ)].length) ∧ ((0:ℕ) = 0 ∨ (1:ℝ) < 0) ∧
      (¬ ValidArgs [0] [(5:ℝ)] 1 1 0 ∧
        (kernel_curve [0] [(5:ℝ)] [0] 1 1 0 0).map Row.shock = [0] ∧
        List.Forall₂ (fun (row : Row) (g : ℝ) => row.effN = effCount (weights [0] 1 g))
          (kernel_curve [0] [(5:ℝ)] [0] 1 1 0 0) [0]) :=
  ⟨rfl, le_refl _, Or.inl rfl,
    kernel_curve_no_validation [0] [(5:ℝ)] [0] 1 1 0 0 rfl (le_refl _) (Or.inl rfl)⟩

end DefiStress
